import Mathlib

/-!
# PassWeaver — verification of `src/password_tool.py`

A shallow embedding of the core functions of `password_tool.py`
(leetspeak variation generator, pattern combinator, entropy estimator,
policy checker, local lab hash matcher and its CLI gate), together with
theorems settling the specification claims.

Modelling conventions:
* Python `str` is Lean `String`; character-level work happens on `s.data`.
* Python `str.lower` / `str.upper` / `str.capitalize` are modelled for the
  ASCII range (the tool's keyword interface restricts input to `[A-Za-z0-9]+`,
  and hash-file digests are ASCII hex).
* Python `sorted` on strings compares by code point; we model this with an
  executable lexicographic comparison on `String.data` and an insertion sort,
  which agrees with Python's sort on deduplicated inputs.
* Python `dict` (insertion-ordered, overwriting) is an association list with
  an insert-or-update operation.
* `hashlib.sha256(...).hexdigest()` is an external library function, not code
  of this repository; the matcher is parametrised by an abstract digest
  function `H : String → String`.
* Files are lists of raw lines; `int` results that are list lengths are `Nat`.
-/

/-! ## Python string primitives (ASCII model) -/

/-- The 26 ASCII uppercase/lowercase letter pairs, used to model
Python `str.lower` and `str.upper` on the ASCII range. -/
def upperLowerPairs : List (Char × Char) :=
  [('A', 'a'), ('B', 'b'), ('C', 'c'), ('D', 'd'), ('E', 'e'), ('F', 'f'),
   ('G', 'g'), ('H', 'h'), ('I', 'i'), ('J', 'j'), ('K', 'k'), ('L', 'l'),
   ('M', 'm'), ('N', 'n'), ('O', 'o'), ('P', 'p'), ('Q', 'q'), ('R', 'r'),
   ('S', 's'), ('T', 't'), ('U', 'u'), ('V', 'v'), ('W', 'w'), ('X', 'x'),
   ('Y', 'y'), ('Z', 'z')]

/-- ASCII model of Python lowercasing of one character. -/
def pyLowerChar (c : Char) : Char :=
  match upperLowerPairs.find? (fun p => p.1 == c) with
  | some p => p.2
  | none => c

/-- ASCII model of Python uppercasing of one character. -/
def pyUpperChar (c : Char) : Char :=
  match upperLowerPairs.find? (fun p => p.2 == c) with
  | some p => p.1
  | none => c

/-- Python `str.lower()` (ASCII model). -/
def pyLower (s : String) : String := ⟨s.data.map pyLowerChar⟩

/-- Python `str.upper()` (ASCII model). -/
def pyUpper (s : String) : String := ⟨s.data.map pyUpperChar⟩

/-- Python `str.capitalize()`: first character uppercased, the rest
lowercased (ASCII model). -/
def pyCapitalize (s : String) : String :=
  match s.data with
  | [] => ""
  | c :: rest => ⟨pyUpperChar c :: rest.map pyLowerChar⟩

/-- The whitespace characters stripped by Python `str.strip()`
(ASCII whitespace). -/
def isPySpace (c : Char) : Bool :=
  c == ' ' || c == '\t' || c == '\n' || c == '\r' || c == '\x0b' || c == '\x0c'

/-- Python `str.strip()`: remove leading and trailing whitespace. -/
def pyStrip (s : String) : String :=
  ⟨((s.data.dropWhile isPySpace).reverse.dropWhile isPySpace).reverse⟩

/-- Does `hay` start with `needle`?  (Helper for substring search.) -/
def startsWithChars : List Char → List Char → Bool
  | [], _ => true
  | _ :: _, [] => false
  | a :: as, b :: bs => a == b && startsWithChars as bs

/-- Python `needle in hay` substring containment on character lists. -/
def hasSubstr (needle : List Char) : List Char → Bool
  | [] => startsWithChars needle []
  | c :: rest => startsWithChars needle (c :: rest) || hasSubstr needle rest

/-- Python `line.split(sep, 1)` at the first colon: the part before the
first `':'` and the part after it. -/
def splitOnceColon : List Char → List Char × List Char
  | [] => ([], [])
  | c :: rest =>
    if c == ':' then ([], rest)
    else
      let p := splitOnceColon rest
      (c :: p.1, p.2)

/-! ## Lexicographic string order (Python `sorted` on `str`) -/

/-- Code-point lexicographic strict order on character lists, as Python
compares strings. -/
def listCharLt : List Char → List Char → Bool
  | [], [] => false
  | [], _ :: _ => true
  | _ :: _, [] => false
  | a :: as, b :: bs => if a < b then true else if b < a then false else listCharLt as bs

/-- Strict lexicographic order on strings (Python `<` on `str`). -/
def strLt (a b : String) : Bool := listCharLt a.data b.data

/-- Reflexive lexicographic order on strings. -/
def strLe (a b : String) : Bool := strLt a b || a == b

/-- `strLe` as a decidable relation, for sorting. -/
def StrLeR (a b : String) : Prop := strLe a b = true

instance : DecidableRel StrLeR :=
  fun a b => inferInstanceAs (Decidable (strLe a b = true))

/-- Model of Python `sorted` on a list of (distinct) strings. -/
def sortStrings (l : List String) : List String := List.insertionSort StrLeR l

/-! ## Mutation pipeline (`generate_leetspeak_variations` and friends) -/

/-- The module-level `leet_substitutions` table of `password_tool.py`.
Every replacement token in the source is a single character, so tokens are
modelled as `Char`; a character that is not a key maps to `[]`. -/
def leet_substitutions (c : Char) : List Char :=
  if c == 'a' then ['@', '4']
  else if c == 'b' then ['8']
  else if c == 'c' then ['(']
  else if c == 'e' then ['3']
  else if c == 'g' then ['9']
  else if c == 'i' then ['1', '!']
  else if c == 'o' then ['0']
  else if c == 's' then ['$', '5']
  else if c == 't' then ['7']
  else []

/-- Python `ch in leet_substitutions` (key membership; all table entries are
non-empty lists). -/
def isLeetKey (c : Char) : Bool := !(leet_substitutions c).isEmpty

/-- `itertools.combinations(l, k)`: the length-`k` sublists of `l` in the
order `itertools` enumerates them (lexicographic by position). -/
def combinations {α : Type} : Nat → List α → List (List α)
  | 0, _ => [[]]
  | _ + 1, [] => []
  | k + 1, x :: xs => (combinations k xs).map (fun t => x :: t) ++ combinations (k + 1) xs

/-- `[i for i, ch in enumerate(w) if ch in leet_substitutions]`. -/
def subIndices (w : List Char) : List Nat :=
  (w.enum.filter (fun p => isLeetKey p.2)).map (fun p => p.1)

/-- The single-substitution loop of `generate_leetspeak_variations`
(`level >= 1`): for each substitutable position, one variant per
replacement token. -/
def singleSubs (w : List Char) : List (List Char) :=
  (subIndices w).flatMap (fun i =>
    (leet_substitutions (w.getD i ' ')).map (fun sub => w.set i sub))

/-- The pair-substitution loop (`level >= 2`): both positions of each
unordered pair substituted simultaneously, over the cross product of the
two token lists. -/
def pairSubs (w : List Char) : List (List Char) :=
  (combinations 2 (subIndices w)).flatMap (fun pr =>
    match pr with
    | [a, b] =>
      (leet_substitutions (w.getD a ' ')).flatMap (fun sa =>
        (leet_substitutions (w.getD b ' ')).map (fun sb => (w.set a sa).set b sb))
    | _ => [])

/-- The triple-substitution loop (`level >= 3`): only the first 50 triples
of positions, and only the first replacement token of each position. -/
def tripleSubs (w : List Char) : List (List Char) :=
  ((combinations 3 (subIndices w)).take 50).flatMap (fun tr =>
    match tr with
    | [a, b, c] =>
      ((leet_substitutions (w.getD a ' ')).take 1).flatMap (fun sa =>
        ((leet_substitutions (w.getD b ' ')).take 1).flatMap (fun sb =>
          ((leet_substitutions (w.getD c ' ')).take 1).map (fun sc =>
            ((w.set a sa).set b sb).set c sc)))
    | _ => [])

/-- All strings accumulated into the `variations` set of
`generate_leetspeak_variations` before sorting: the four base casings plus
the level-gated substitution families. -/
def variationsList (word : String) (level : Nat) : List String :=
  let w := (pyLower word).data
  [word, pyLower word, pyUpper word, pyCapitalize word]
    ++ (if 1 ≤ level then (singleSubs w).map (fun l => (⟨l⟩ : String)) else [])
    ++ (if 2 ≤ level then (pairSubs w).map (fun l => (⟨l⟩ : String)) else [])
    ++ (if 3 ≤ level then (tripleSubs w).map (fun l => (⟨l⟩ : String)) else [])

/-- `generate_leetspeak_variations(word, level, max_results)`:
`sorted(variations)[:max_results]` where `variations` is a set. -/
def generate_leetspeak_variations (word : String) (level : Nat) (max_results : Nat) :
    List String :=
  (sortStrings (variationsList word level).dedup).take max_results

/-- `add_common_patterns(words, patterns)`: the input words plus
`w+p`, `p+w` and `w+"_"+p` for every word and pattern, as a sorted set. -/
def add_common_patterns (words : List String) (patterns : List String) : List String :=
  sortStrings
    (words ++ words.flatMap (fun w =>
      patterns.flatMap (fun p => [w ++ p, p ++ w, w ++ "_" ++ p]))).dedup

/-! ## Entropy estimator -/

/-- `re.search(r'[a-z]', password)`. -/
def hasLowerLetter (p : String) : Bool := p.data.any (fun c => 'a' ≤ c && c ≤ 'z')

/-- `re.search(r'[A-Z]', password)`. -/
def hasUpperLetter (p : String) : Bool := p.data.any (fun c => 'A' ≤ c && c ≤ 'Z')

/-- `re.search(r'[0-9]', password)`. -/
def hasDigitChar (p : String) : Bool := p.data.any (fun c => '0' ≤ c && c ≤ '9')

/-- `re.search(r'[^A-Za-z0-9]', password)`. -/
def hasOtherChar (p : String) : Bool :=
  p.data.any (fun c =>
    !('a' ≤ c && c ≤ 'z') && !('A' ≤ c && c ≤ 'Z') && !('0' ≤ c && c ≤ '9'))

/-- The `charset` accumulator of `estimate_entropy_bits`. -/
def charsetSize (p : String) : Nat :=
  (if hasLowerLetter p then 26 else 0) + (if hasUpperLetter p then 26 else 0)
    + (if hasDigitChar p then 10 else 0) + (if hasOtherChar p then 32 else 0)

/-- `re.search(r'(123|password|qwerty|admin|letmein)', password.lower())`. -/
def hasWeakPattern (p : String) : Bool :=
  (["123", "password", "qwerty", "admin", "letmein"] : List String).any
    (fun pat => hasSubstr pat.data (pyLower p).data)

/-- `estimate_entropy_bits(password)`; Python floats are modelled as reals,
`math.log2` as `Real.logb 2`. -/
noncomputable def estimate_entropy_bits (p : String) : ℝ :=
  if charsetSize p = 0 then 0
  else
    let bits : ℝ := (p.length : ℝ) * Real.logb 2 (charsetSize p)
    let bits := if hasWeakPattern p then bits - 10 else bits
    max bits 0

/-! ## Policy checker -/

/-- A caller-supplied policy dictionary: each key of the closed field set
may be absent (Python `dict` without that key). -/
structure PolicyDict where
  min_length : Option Int
  require_upper : Option Bool
  require_digit : Option Bool
  ban_substrings : Option (List String)
deriving Repr, DecidableEq

/-- The default policy built by `policy_check` when `policy is None`. -/
def defaultPolicy : PolicyDict :=
  { min_length := some 8
    require_upper := some true
    require_digit := some true
    ban_substrings := some ["password", "1234"] }

/-- The `failures` list built by `policy_check`, in the source's append
order: `too_short`, `missing_upper`, `missing_digit`, then one
`contains_<b>` per banned substring found.  The optional fields are read
with `policy.get(...)` (`getD`), so an absent key disables its check. -/
def policyFailures (password : String) (pol : PolicyDict) (minLen : Int) : List String :=
  (if (password.length : Int) < minLen then ["too_short"] else [])
  ++ (if pol.require_upper.getD false && !hasUpperLetter password
      then ["missing_upper"] else [])
  ++ (if pol.require_digit.getD false && !hasDigitChar password
      then ["missing_digit"] else [])
  ++ (pol.ban_substrings.getD []).filterMap (fun b =>
        if hasSubstr b.data (pyLower password).data
        then some ("contains_" ++ b) else none)

/-- `policy_check(password, policy)`.  `policy['min_length']` is a mandatory
lookup (Python `KeyError`, modelled as `none`); the other fields are read
with `policy.get(...)`, so an absent key disables the check.  Returns
`(len(failures) == 0, failures)`. -/
def policy_check (password : String) (policy : Option PolicyDict) :
    Option (Bool × List String) :=
  let pol := policy.getD defaultPolicy
  match pol.min_length with
  | none => none
  | some minLen =>
    let failures := policyFailures password pol minLen
    some (failures.isEmpty, failures)

/-- C4's statement of the entropy formula, following the claim's words:
`max(0, len(p) * log2(S) - P)` with the flat 10-bit penalty `P`, and `0`
when no character class is present. -/
noncomputable def entropySpec (p : String) : ℝ :=
  if charsetSize p = 0 then 0
  else
    max 0 ((p.length : ℝ) * Real.logb 2 (charsetSize p)
      - (if hasWeakPattern p then 10 else 0))

/-- C5's statement of the default-policy failure list, following the
claim's words: the fixed evaluation order `too_short`, `missing_upper`,
`missing_digit`, then `contains_<b>` for each banned substring of the
default policy found case-insensitively. -/
def policyFailuresSpec (p : String) : List String :=
  (if p.length < 8 then ["too_short"] else [])
  ++ (if !hasUpperLetter p then ["missing_upper"] else [])
  ++ (if !hasDigitChar p then ["missing_digit"] else [])
  ++ (["password", "1234"] : List String).filterMap (fun b =>
        if hasSubstr b.data (pyLower p).data
        then some ("contains_" ++ b) else none)

/-! ## Lab simulation -/

/-- Python `dict` insert-or-update: an existing key keeps its position and
gets the new value, a new key is appended. -/
def dictInsert (d : List (String × String)) (k v : String) : List (String × String) :=
  if d.any (fun kv => kv.1 == k) then
    d.map (fun kv => if kv.1 == k then (k, v) else kv)
  else d ++ [(k, v)]

/-- `load_local_sha256_hashes(path)`: parse `username:hex_sha256` lines into
a dict, skipping lines that strip to empty or contain no colon; keys are
stripped and digests are stripped and lowercased. -/
def load_local_sha256_hashes (lines : List String) : List (String × String) :=
  lines.foldl (fun out line =>
    let l := pyStrip line
    if l.data.isEmpty || !(l.data.contains ':') then out
    else
      let p := splitOnceColon l.data
      dictInsert out (pyStrip ⟨p.1⟩) (pyLower (pyStrip ⟨p.2⟩))) []

/-- `lab_simulate_match(hashes_path, candidates_path, max_checks)`,
parametrised by the abstract digest function `H` standing for
`sha256_hex`.  Reads at most `max_checks` candidate lines, strips each,
and reports `(user, candidate, digest)` for every candidate/table pair
whose digests agree. -/
def lab_simulate_match (H : String → String) (hashLines candLines : List String)
    (max_checks : Nat) : List (String × String × String) :=
  let targets := load_local_sha256_hashes hashLines
  let candidates := (candLines.take max_checks).map pyStrip
  candidates.flatMap (fun cand =>
    let h := H cand
    targets.filterMap (fun ut => if h == ut.2 then some (ut.1, cand, h) else none))

/-! ## CLI gate for the lab simulation (`cmd_lab_sim`) -/

/-- Outcome of the `lab-sim` subcommand. -/
inductive LabSimOutcome where
  | refusedGate
  | refusedMissingFiles
  | ran (hits : List (String × String × String))
deriving Repr, DecidableEq

/-- `cmd_lab_sim(args)`: refuses unless both `--lab` and `--confirm` were
passed, then refuses if either file is missing, and only then runs
`lab_simulate_match` (with its default `max_checks = 100000`).  The file
contents are arguments only so the model can express that a refusal reads
no file. -/
def cmd_lab_sim (lab confirm : Bool) (hashesExists candidatesExists : Bool)
    (H : String → String) (hashLines candLines : List String) : LabSimOutcome :=
  if !lab || !confirm then .refusedGate
  else if !hashesExists || !candidatesExists then .refusedMissingFiles
  else .ran (lab_simulate_match H hashLines candLines 100000)

/-! ## Order lemmas for the lexicographic sort -/

theorem listCharLt_irrefl : ∀ (a : List Char), listCharLt a a = false
  | [] => rfl
  | x :: xs => by
    simp only [listCharLt]
    rw [if_neg (lt_irrefl x), if_neg (lt_irrefl x)]
    exact listCharLt_irrefl xs

theorem listCharLt_trans : ∀ (a b c : List Char),
    listCharLt a b = true → listCharLt b c = true → listCharLt a c = true
  | [], [], _, h1, _ => by simp [listCharLt] at h1
  | [], _ :: _, [], _, h2 => by simp [listCharLt] at h2
  | [], _ :: _, _ :: _, _, _ => by simp [listCharLt]
  | _ :: _, [], _, h1, _ => by simp [listCharLt] at h1
  | _ :: _, _ :: _, [], _, h2 => by simp [listCharLt] at h2
  | x :: xs, y :: ys, z :: zs, h1, h2 => by
    simp only [listCharLt] at h1 h2 ⊢
    rcases lt_trichotomy x y with hxy | hxy | hxy
    · rcases lt_trichotomy y z with hyz | hyz | hyz
      · rw [if_pos (lt_trans hxy hyz)]
      · subst hyz; rw [if_pos hxy]
      · rw [if_neg (asymm hyz), if_pos hyz] at h2; simp at h2
    · subst hxy
      rcases lt_trichotomy x z with hxz | hxz | hxz
      · rw [if_pos hxz]
      · subst hxz
        rw [if_neg (lt_irrefl x), if_neg (lt_irrefl x)] at h1 h2 ⊢
        exact listCharLt_trans xs ys zs h1 h2
      · rw [if_neg (asymm hxz), if_pos hxz] at h2; simp at h2
    · rw [if_neg (asymm hxy), if_pos hxy] at h1; simp at h1

theorem listCharLt_connex : ∀ (a b : List Char),
    listCharLt a b = false → listCharLt b a = false → a = b
  | [], [], _, _ => rfl
  | [], _ :: _, h1, _ => by simp [listCharLt] at h1
  | _ :: _, [], _, h2 => by simp [listCharLt] at h2
  | x :: xs, y :: ys, h1, h2 => by
    simp only [listCharLt] at h1 h2
    rcases lt_trichotomy x y with hxy | hxy | hxy
    · rw [if_pos hxy] at h1; simp at h1
    · subst hxy
      rw [if_neg (lt_irrefl x), if_neg (lt_irrefl x)] at h1 h2
      rw [listCharLt_connex xs ys h1 h2]
    · rw [if_neg (asymm hxy), if_pos hxy] at h2; simp at h2

theorem strLt_irrefl (a : String) : strLt a a = false := listCharLt_irrefl a.data

theorem strLt_trans {a b c : String} (h1 : strLt a b = true) (h2 : strLt b c = true) :
    strLt a c = true := listCharLt_trans a.data b.data c.data h1 h2

theorem strLt_connex {a b : String} (h1 : strLt a b = false) (h2 : strLt b a = false) :
    a = b := by
  have := listCharLt_connex a.data b.data h1 h2
  cases a; cases b; exact congrArg String.mk this

theorem strLe_total (a b : String) : strLe a b = true ∨ strLe b a = true := by
  unfold strLe
  cases h1 : strLt a b with
  | true => exact Or.inl (by simp)
  | false =>
    cases h2 : strLt b a with
    | true => exact Or.inr (by simp)
    | false =>
      have := strLt_connex h1 h2
      subst this
      exact Or.inl (by simp)

theorem strLe_trans {a b c : String} (h1 : strLe a b = true) (h2 : strLe b c = true) :
    strLe a c = true := by
  unfold strLe at h1 h2 ⊢
  rcases Bool.or_eq_true_iff.mp h1 with h1' | h1'
  · rcases Bool.or_eq_true_iff.mp h2 with h2' | h2'
    · exact Bool.or_eq_true_iff.mpr (Or.inl (strLt_trans h1' h2'))
    · have : b = c := beq_iff_eq.mp h2'
      subst this
      exact Bool.or_eq_true_iff.mpr (Or.inl h1')
  · have : a = b := beq_iff_eq.mp h1'
    subst this
    exact h2

theorem sortStrings_perm (l : List String) : (sortStrings l).Perm l :=
  List.perm_insertionSort _ l

theorem mem_sortStrings {x : String} {l : List String} : x ∈ sortStrings l ↔ x ∈ l :=
  List.mem_insertionSort _

theorem length_sortStrings (l : List String) : (sortStrings l).length = l.length :=
  (sortStrings_perm l).length_eq

theorem sortStrings_sorted (l : List String) : List.Sorted StrLeR (sortStrings l) :=
  @List.sorted_insertionSort String StrLeR _ ⟨strLe_total⟩ ⟨fun _ _ _ => strLe_trans⟩ l

theorem strLe_ne_lt {a b : String} (h : strLe a b = true) (hne : a ≠ b) :
    strLt a b = true := by
  unfold strLe at h
  rcases Bool.or_eq_true_iff.mp h with h' | h'
  · exact h'
  · exact absurd (beq_iff_eq.mp h') hne

theorem sortStrings_pairwise_lt {l : List String} (h : l.Nodup) :
    List.Pairwise (fun a b => strLt a b = true) (sortStrings l) := by
  have hs : List.Pairwise StrLeR (sortStrings l) := sortStrings_sorted l
  have hn : List.Pairwise (fun a b : String => a ≠ b) (sortStrings l) :=
    (sortStrings_perm l).symm.nodup h
  exact (hs.and hn).imp (fun hab => strLe_ne_lt hab.1 hab.2)

/-! ## Facts about the variation generator -/

theorem variationsList_zero (w : String) :
    variationsList w 0 = [w, pyLower w, pyUpper w, pyCapitalize w] := by
  simp [variationsList]

theorem mem_variationsList_zero_one {w x : String} (h : x ∈ variationsList w 0) :
    x ∈ variationsList w 1 := by
  rw [variationsList_zero] at h
  unfold variationsList
  simp only [List.mem_append]
  exact Or.inl (Or.inl (Or.inl (by simpa using h)))

theorem mem_generate {w x : String} {level N : Nat}
    (h : x ∈ generate_leetspeak_variations w level N) : x ∈ variationsList w level :=
  List.mem_dedup.mp (mem_sortStrings.mp (List.mem_of_mem_take h))

theorem generate_eq_full {w : String} {level N : Nat}
    (h : ((variationsList w level).dedup).length ≤ N) :
    generate_leetspeak_variations w level N = sortStrings (variationsList w level).dedup := by
  unfold generate_leetspeak_variations
  exact List.take_of_length_le (by rw [length_sortStrings]; exact h)

theorem subIndices_nil {w : List Char} (h : ∀ c ∈ w, leet_substitutions c = []) :
    subIndices w = [] := by
  have hf : (w.enum.filter fun p => isLeetKey p.2) = [] := by
    rw [List.filter_eq_nil_iff]
    rintro ⟨i, c⟩ hp
    obtain ⟨hi, hc⟩ := List.mem_enum hp
    have hcmem : c ∈ w := hc ▸ List.getElem_mem hi
    simp [isLeetKey, h c hcmem]
  unfold subIndices
  rw [hf]
  rfl

theorem variationsList_no_subs (w : String) (level : Nat)
    (hsub : ∀ c ∈ (pyLower w).data, leet_substitutions c = []) :
    variationsList w level = [w, pyLower w, pyUpper w, pyCapitalize w] := by
  have hidx : subIndices (pyLower w).data = [] := subIndices_nil hsub
  have h1 : singleSubs (pyLower w).data = [] := by unfold singleSubs; rw [hidx]; rfl
  have h2 : pairSubs (pyLower w).data = [] := by unfold pairSubs; rw [hidx]; rfl
  have h3 : tripleSubs (pyLower w).data = [] := by unfold tripleSubs; rw [hidx]; rfl
  simp [variationsList, h1, h2, h3]

/-- C1: at `level = 0` the generator yields nothing beyond the four base
casings (proved for every `max_results ≥ 1`); the level-0 output is
contained in the level-1 output provided the level-1 `max_results` is at
least the number of distinct level-1 variations, i.e. provided the
truncation does not bite (growth is monotone at the level of the
accumulated variation sets; the original same-`max_results` form of the
claim is refuted by `claim_C1_counterexample`). -/
theorem claim_C1 (w : String) (N M : Nat) (hN : 1 ≤ N)
    (hM : ((variationsList w 1).dedup).length ≤ M) :
    (∀ x ∈ generate_leetspeak_variations w 0 N,
        x = w ∨ x = pyLower w ∨ x = pyUpper w ∨ x = pyCapitalize w) ∧
    (∀ x ∈ generate_leetspeak_variations w 0 N,
        x ∈ generate_leetspeak_variations w 1 M) := by
  constructor
  · intro x hx
    have hmem := mem_generate hx
    rw [variationsList_zero] at hmem
    simpa using hmem
  · intro x hx
    have h1 : x ∈ variationsList w 1 := mem_variationsList_zero_one (mem_generate hx)
    rw [generate_eq_full hM]
    exact mem_sortStrings.mpr (List.mem_dedup.mpr h1)

/-- C1 witness: concrete application of `claim_C1` at `w = "a"`, `N = 2`,
`M = 4`. -/
theorem claim_C1_witness : "a" ∈ generate_leetspeak_variations "a" 1 4 :=
  (claim_C1 "a" 2 4 (by decide) (by decide)).2 "a" (by decide)

/-- C1 counterexample: with the same `max_results = 2`, the base casing
`"a"` appears in the level-0 output but not in the level-1 output, because
the leet variants `"4"` and `"@"` sort before it and the truncation drops
it.  So the level-0 result is not a subset of the level-1 result at equal
`max_results`. -/
theorem claim_C1_counterexample :
    1 ≤ 2 ∧ "a" ∈ generate_leetspeak_variations "a" 0 2 ∧
      "a" ∉ generate_leetspeak_variations "a" 1 2 := by decide

/-- C2 (amended with `max_results ≥ 4`): for a word none of whose lowercased
characters has a substitution entry, the generator returns exactly the
deduplicated base casings — provided `max_results` is at least 4, so that
the final truncation cannot drop one of them (the `max_results ≥ 1` form of
the claim is refuted by `claim_C2_counterexample`). -/
theorem claim_C2 (w : String) (level N : Nat) (hlev : level ≤ 3) (hN : 4 ≤ N)
    (hsub : ∀ c ∈ (pyLower w).data, leet_substitutions c = []) :
    (∀ x, x ∈ generate_leetspeak_variations w level N ↔
        (x = w ∨ x = pyLower w ∨ x = pyUpper w ∨ x = pyCapitalize w)) ∧
    (generate_leetspeak_variations w level N).Nodup := by
  have hv := variationsList_no_subs w level hsub
  have hlen : ((variationsList w level).dedup).length ≤ N := by
    calc ((variationsList w level).dedup).length
        ≤ (variationsList w level).length := (List.dedup_sublist _).length_le
      _ ≤ N := by rw [hv]; exact le_trans (by norm_num) hN
  rw [generate_eq_full hlen]
  constructor
  · intro x
    rw [mem_sortStrings, List.mem_dedup, hv]
    simp
  · exact (sortStrings_perm _).symm.nodup (List.nodup_dedup _)

/-- C2 witness: concrete application of `claim_C2` at `w = "dk"`
(no substitutable characters), `level = 0`, `N = 4`. -/
theorem claim_C2_witness : "dk" ∈ generate_leetspeak_variations "dk" 0 4 :=
  ((claim_C2 "dk" 0 4 (by decide) (by decide) (by decide)).1 "dk").mpr (Or.inl rfl)

/-- C2 counterexample: `"dk"` has no substitutable characters, yet with
`max_results = 1` the output is just `["DK"]` and misses the base casing
`"dk"` itself — so the claim fails for `max_results` between 1 and 3. -/
theorem claim_C2_counterexample :
    (∀ c ∈ (pyLower "dk").data, leet_substitutions c = []) ∧ 1 ≤ (1 : Nat) ∧
      generate_leetspeak_variations "dk" 0 1 = ["DK"] ∧
      "dk" ∉ generate_leetspeak_variations "dk" 0 1 := by decide

/-- C8: the generator returns at most `max_results` strings; the output is
strictly increasing in the code-point lexicographic order (so it is the
sorted, deduplicated variation set with no reordering or random choice);
and enlarging `max_results` only extends the output — the `N`-bounded
result is literally the first `N` entries of any `M`-bounded result with
`M ≥ N`, i.e. truncation drops entries deterministically by sort order. -/
theorem claim_C8 (w : String) (level N : Nat) (hN : 1 ≤ N) :
    (generate_leetspeak_variations w level N).length ≤ N ∧
    List.Pairwise (fun a b => strLt a b = true)
      (generate_leetspeak_variations w level N) ∧
    (∀ M, N ≤ M →
      generate_leetspeak_variations w level N =
        (generate_leetspeak_variations w level M).take N) := by
  refine ⟨List.length_take_le _ _, ?_, ?_⟩
  · exact List.Pairwise.sublist (List.take_sublist _ _)
      (sortStrings_pairwise_lt (List.nodup_dedup _))
  · intro M hNM
    unfold generate_leetspeak_variations
    rw [List.take_take, Nat.min_eq_left hNM]

/-- C8 witness: concrete application of `claim_C8` at `w = "Leet"`,
`level = 2`, `N = 5`. -/
theorem claim_C8_witness : (generate_leetspeak_variations "Leet" 2 5).length ≤ 5 :=
  (claim_C8 "Leet" 2 5 (by decide)).1

/-! ## Entropy and policy claims -/

/-- C4: `estimate_entropy_bits` computes exactly
`max(0, len(p) * log2(S) - P)` — with `S` the sum of the present character
class contributions, result `0` when no class is present, and `P` the flat
10-bit penalty for the fixed weak substrings — and in particular
`estimate("") = 0` and `estimate("aaaaaaaa") = 8 * log2(26)` with no
penalty. -/
theorem claim_C4 :
    (∀ p, estimate_entropy_bits p = entropySpec p) ∧
    estimate_entropy_bits "" = 0 ∧
    estimate_entropy_bits "aaaaaaaa" = 8 * Real.logb 2 26 := by
  have hgen : ∀ p, estimate_entropy_bits p = entropySpec p := by
    intro p
    unfold estimate_entropy_bits entropySpec
    by_cases h : charsetSize p = 0
    · rw [if_pos h, if_pos h]
    · rw [if_neg h, if_neg h]
      dsimp only
      by_cases hw : hasWeakPattern p = true
      · rw [if_pos hw, if_pos hw]
        exact max_comm _ _
      · rw [if_neg hw, if_neg hw, sub_zero]
        exact max_comm _ _
  refine ⟨hgen, ?_, ?_⟩
  · rw [hgen]
    unfold entropySpec
    rw [if_pos (by decide : charsetSize "" = 0)]
  · rw [hgen]
    unfold entropySpec
    rw [if_neg (by decide : ¬ charsetSize "aaaaaaaa" = 0),
        show charsetSize "aaaaaaaa" = 26 from by decide,
        show hasWeakPattern "aaaaaaaa" = false from by decide,
        show ("aaaaaaaa" : String).length = 8 from by decide]
    have hlog : 0 ≤ Real.logb 2 ((26 : Nat) : ℝ) :=
      Real.logb_nonneg (by norm_num) (by norm_num)
    rw [if_neg (by simp), sub_zero,
        max_eq_right (mul_nonneg (by norm_num) hlog)]
    norm_num

/-- C5: under the default policy, `policy_check` returns the failure codes
in the fixed order `too_short`, `missing_upper`, `missing_digit`, then
`contains_<b>` for each banned substring found case-insensitively, with all
checks evaluated (no short-circuiting) and `passed` true exactly when the
list is empty; in particular `policy_check("abcdefg1")` fails with exactly
`["missing_upper"]` (so `too_short` is excluded). -/
theorem claim_C5 :
    (∀ p, policy_check p none =
        some ((policyFailuresSpec p).isEmpty, policyFailuresSpec p)) ∧
    policy_check "abcdefg1" none = some (false, ["missing_upper"]) := by
  constructor
  · intro p
    have hcast : ((p.length : Int) < (8 : Int)) ↔ p.length < 8 := by
      exact_mod_cast Iff.rfl
    simp only [policy_check, Option.getD_none, defaultPolicy]
    unfold policyFailures policyFailuresSpec
    simp [hcast]
  · decide

/-- C7: `add_common_patterns` returns exactly the input words together with
`w+p`, `p+w` and `w+"_"+p` for every word `w` and pattern `p`, and nothing
else; in particular on `["x"]` and `["123"]` it is exactly
`{"x", "x123", "123x", "x_123"}` (sorted). -/
theorem claim_C7 :
    (∀ (words patterns : List String) (x : String),
        x ∈ add_common_patterns words patterns ↔
          x ∈ words ∨ ∃ w ∈ words, ∃ p ∈ patterns,
            x = w ++ p ∨ x = p ++ w ∨ x = w ++ "_" ++ p) ∧
    add_common_patterns ["x"] ["123"] = ["123x", "x", "x123", "x_123"] := by
  constructor
  · intro words patterns x
    unfold add_common_patterns
    rw [mem_sortStrings, List.mem_dedup, List.mem_append]
    constructor
    · rintro (h | h)
      · exact Or.inl h
      · obtain ⟨w, hw, hx⟩ := List.mem_flatMap.mp h
        obtain ⟨p, hp, hx⟩ := List.mem_flatMap.mp hx
        refine Or.inr ⟨w, hw, p, hp, ?_⟩
        simpa using hx
    · rintro (h | ⟨w, hw, p, hp, h⟩)
      · exact Or.inl h
      · refine Or.inr (List.mem_flatMap.mpr ⟨w, hw, List.mem_flatMap.mpr ⟨p, hp, ?_⟩⟩)
        simpa using h
  · decide

/-! ## Hash-table loading claims -/

theorem pyLowerChar_idem (c : Char) : pyLowerChar (pyLowerChar c) = pyLowerChar c := by
  cases hf : upperLowerPairs.find? (fun p => p.1 == c) with
  | none =>
    have hc : pyLowerChar c = c := by unfold pyLowerChar; rw [hf]
    rw [hc]
    exact hc
  | some pr =>
    have hc : pyLowerChar c = pr.2 := by unfold pyLowerChar; rw [hf]
    have hmem : pr ∈ upperLowerPairs := List.mem_of_find?_eq_some hf
    have hlow : ∀ q ∈ upperLowerPairs, pyLowerChar q.2 = q.2 := by decide
    rw [hc, hlow pr hmem]

theorem pyLower_idem (s : String) : pyLower (pyLower s) = pyLower s := by
  unfold pyLower
  refine congrArg String.mk ?_
  rw [List.map_map]
  exact List.map_congr_left (fun a _ => pyLowerChar_idem a)

theorem dictInsert_snd_mem {d : List (String × String)} {k v : String}
    {kv : String × String} (h : kv ∈ dictInsert d k v) :
    kv.2 = v ∨ ∃ kv' ∈ d, kv.2 = kv'.2 := by
  unfold dictInsert at h
  split at h
  · obtain ⟨kv', hkv', heq⟩ := List.mem_map.mp h
    by_cases hk : (kv'.1 == k) = true
    · rw [if_pos hk] at heq
      left
      rw [← heq]
    · rw [if_neg hk] at heq
      exact Or.inr ⟨kv', hkv', by rw [← heq]⟩
  · rcases List.mem_append.mp h with h' | h'
    · exact Or.inr ⟨kv, h', rfl⟩
    · left
      rw [List.mem_singleton] at h'
      rw [h']

theorem load_values_lowered (lines : List String) :
    ∀ kv ∈ load_local_sha256_hashes lines, pyLower kv.2 = kv.2 := by
  suffices haux : ∀ (ls : List String) (acc : List (String × String)),
      (∀ kv ∈ acc, pyLower kv.2 = kv.2) →
      ∀ kv ∈ ls.foldl (fun out line =>
        let l := pyStrip line
        if l.data.isEmpty || !(l.data.contains ':') then out
        else
          let p := splitOnceColon l.data
          dictInsert out (pyStrip ⟨p.1⟩) (pyLower (pyStrip ⟨p.2⟩))) acc,
        pyLower kv.2 = kv.2 by
    exact haux lines [] (by simp)
  intro ls
  induction ls with
  | nil =>
    intro acc hacc kv h
    rw [List.foldl_nil] at h
    exact hacc kv h
  | cons l ls ih =>
    intro acc hacc kv h
    rw [List.foldl_cons] at h
    refine ih _ ?_ kv h
    intro kv' hkv'
    dsimp only at hkv'
    split at hkv'
    · exact hacc kv' hkv'
    · rcases dictInsert_snd_mem hkv' with h1 | ⟨kv'', hkv'', h2⟩
      · rw [h1]
        exact pyLower_idem _
      · rw [h2]
        exact hacc kv'' hkv''

/-- C3 (amended): every digest value stored by `load_local_sha256_hashes`
is lowercased (a fixpoint of lowercasing, i.e. it contains no uppercase
ASCII letters) — but it is not validated to be hexadecimal of length 64;
`claim_C3_counterexample` shows a 3-character non-hex digest being
stored as-is. -/
theorem claim_C3 (lines : List String) (u d : String)
    (h : (u, d) ∈ load_local_sha256_hashes lines) : pyLower d = d :=
  load_values_lowered lines (u, d) h

/-- C3 witness: concrete application of `claim_C3` to the table loaded
from the single line `"alice:abc"`. -/
theorem claim_C3_witness : pyLower "abc" = "abc" :=
  claim_C3 ["alice:abc"] "alice" "abc" (by decide)

/-- C3 counterexample: the loader performs no length or hex validation —
the line `"alice:abc"` stores the digest `"abc"`, whose length is 3,
not 64. -/
theorem claim_C3_counterexample :
    load_local_sha256_hashes ["alice:abc"] = [("alice", "abc")] ∧
      ¬ ("abc" : String).length = 64 := by decide

/-! ## CLI gate claim -/

/-- C9: whenever `--lab` or `--confirm` (or both) is absent, `cmd_lab_sim`
refuses at the gate: the outcome is `refusedGate` independently of every
other input — in particular independently of the contents of the hash and
candidates files (so nothing is read) and of the digest function (so no
matching runs). -/
theorem claim_C9 (lab confirm he ce : Bool) (H : String → String)
    (hl cl : List String) (h : lab = false ∨ confirm = false) :
    cmd_lab_sim lab confirm he ce H hl cl = LabSimOutcome.refusedGate := by
  unfold cmd_lab_sim
  rcases h with h | h <;> subst h <;> simp

/-- C9 witness: concrete application of `claim_C9` with `--lab` absent but
`--confirm` present and both files existing. -/
theorem claim_C9_witness :
    cmd_lab_sim false true true true (fun s => s) ["u:h"] ["pw"] =
      LabSimOutcome.refusedGate :=
  claim_C9 false true true true (fun s => s) ["u:h"] ["pw"] (Or.inl rfl)

/-! ## Non-default policy dictionaries (C10) -/

theorem mem_ite_singleton {x a : String} {c : Prop} [Decidable c]
    (h : x ∈ (if c then [a] else [])) : x = a := by
  split at h
  · simpa using h
  · simp at h

theorem ne_contains_append (t b : String) (h : t.data.head? ≠ some 'c') :
    t ≠ "contains_" ++ b := by
  intro he
  apply h
  rw [he, String.data_append]
  rfl

/-- C10: with a caller-supplied policy dictionary, `policy_check` fails with
`KeyError` (modelled as `none`) exactly when `min_length` is absent, while
an absent `require_upper`, `require_digit` or `ban_substrings` merely
disables the corresponding check (defaulting lookups): no `missing_upper`,
no `missing_digit`, or no `contains_*` failure code can then be produced.
Hence `min_length` is the only mandatory field. -/
theorem claim_C10 (p : String) (pol : PolicyDict) :
    (policy_check p (some pol) = none ↔ pol.min_length = none) ∧
    (pol.require_upper = none → ∀ ok fs, policy_check p (some pol) = some (ok, fs) →
        "missing_upper" ∉ fs) ∧
    (pol.require_digit = none → ∀ ok fs, policy_check p (some pol) = some (ok, fs) →
        "missing_digit" ∉ fs) ∧
    (pol.ban_substrings = none → ∀ ok fs, policy_check p (some pol) = some (ok, fs) →
        ∀ s ∈ fs, s = "too_short" ∨ s = "missing_upper" ∨ s = "missing_digit") := by
  cases hml : pol.min_length with
  | none =>
    have hnone : policy_check p (some pol) = none := by
      unfold policy_check
      simp [hml]
    refine ⟨by simp [hnone, hml], ?_, ?_, ?_⟩ <;>
      · intro _ ok fs h
        rw [hnone] at h
        exact Option.noConfusion h
  | some ml =>
    have hsome : policy_check p (some pol) =
        some ((policyFailures p pol ml).isEmpty, policyFailures p pol ml) := by
      unfold policy_check
      simp [hml]
    have hfs : ∀ ok fs, policy_check p (some pol) = some (ok, fs) →
        fs = policyFailures p pol ml := by
      intro ok fs h
      rw [hsome] at h
      exact (congrArg Prod.snd (Option.some.inj h)).symm
    refine ⟨by simp [hsome, hml], ?_, ?_, ?_⟩
    · intro hru ok fs h
      rw [hfs ok fs h]
      unfold policyFailures
      rw [hru]
      simp only [Option.getD_none, Bool.false_and, Bool.false_eq_true, if_false,
        List.append_nil]
      intro hmem
      simp only [List.mem_append] at hmem
      rcases hmem with (h1 | h3) | h4
      · exact absurd (mem_ite_singleton h1) (by decide)
      · exact absurd (mem_ite_singleton h3) (by decide)
      · obtain ⟨b, hb, hb'⟩ := List.mem_filterMap.mp h4
        split at hb'
        · exact ne_contains_append "missing_upper" b (by decide)
            (Option.some.inj hb').symm
        · exact Option.noConfusion hb'
    · intro hrd ok fs h
      rw [hfs ok fs h]
      unfold policyFailures
      rw [hrd]
      simp only [Option.getD_none, Bool.false_and, Bool.false_eq_true, if_false,
        List.append_nil]
      intro hmem
      simp only [List.mem_append] at hmem
      rcases hmem with (h1 | h2) | h4
      · exact absurd (mem_ite_singleton h1) (by decide)
      · exact absurd (mem_ite_singleton h2) (by decide)
      · obtain ⟨b, hb, hb'⟩ := List.mem_filterMap.mp h4
        split at hb'
        · exact ne_contains_append "missing_digit" b (by decide)
            (Option.some.inj hb').symm
        · exact Option.noConfusion hb'
    · intro hbs ok fs h
      rw [hfs ok fs h]
      unfold policyFailures
      rw [hbs]
      simp only [Option.getD_none, List.filterMap_nil, List.append_nil]
      intro s hs
      simp only [List.mem_append] at hs
      rcases hs with (h1 | h2) | h3
      · exact Or.inl (mem_ite_singleton h1)
      · exact Or.inr (Or.inl (mem_ite_singleton h2))
      · exact Or.inr (Or.inr (mem_ite_singleton h3))

/-- C10 witness: concrete application of `claim_C10` — a policy dictionary
lacking only `min_length` makes `policy_check` raise. -/
theorem claim_C10_witness :
    policy_check "x"
      (some (⟨none, some true, some true, some ["q"]⟩ : PolicyDict)) = none :=
  (claim_C10 "x" ⟨none, some true, some true, some ["q"]⟩).1.mpr rfl

/-! ## Lab matcher claims (C6) -/

theorem dropWhile_append_fixed {p : Char → Bool} (x y : List Char)
    (hx : x.dropWhile p = x) (hy : y.dropWhile p = y) :
    (x ++ y).dropWhile p = x ++ y := by
  cases x with
  | nil => simpa using hy
  | cons a x' =>
    have pa : p a = false := by
      by_contra hpa
      have hpa' : p a = true := by
        revert hpa
        cases p a <;> simp
      rw [List.dropWhile_cons, if_pos hpa'] at hx
      have hle := (List.dropWhile_sublist (l := x') p).length_le
      rw [hx] at hle
      simp at hle
    rw [List.cons_append, List.dropWhile_cons, if_neg (by simp [pa])]

theorem pyStrip_eq_self {s : String}
    (h1 : s.data.dropWhile isPySpace = s.data)
    (h2 : s.data.reverse.dropWhile isPySpace = s.data.reverse) :
    pyStrip s = s := by
  unfold pyStrip
  rw [h1, h2, List.reverse_reverse]

theorem splitOnceColon_append (x y : List Char) (hx : ':' ∉ x) :
    splitOnceColon (x ++ ':' :: y) = (x, y) := by
  induction x with
  | nil => simp [splitOnceColon]
  | cons c x' ih =>
    rw [List.mem_cons, not_or] at hx
    have hc : (c == ':') = false := by
      simp only [beq_eq_false_iff_ne, ne_eq]
      exact fun h => hx.1 h.symm
    rw [List.cons_append, splitOnceColon, if_neg (by simp [hc]), ih hx.2]

theorem lab_simulate_match_mem {H : String → String} {hl cl : List String}
    {mc : Nat} {u c h' : String} :
    (u, c, h') ∈ lab_simulate_match H hl cl mc ↔
      (c ∈ (cl.take mc).map pyStrip ∧
        (u, H c) ∈ load_local_sha256_hashes hl ∧ h' = H c) := by
  unfold lab_simulate_match
  dsimp only
  rw [List.mem_flatMap]
  constructor
  · rintro ⟨cand, hcand, hmem⟩
    obtain ⟨ut, hut, hsome⟩ := List.mem_filterMap.mp hmem
    by_cases hbeq : (H cand == ut.2) = true
    · rw [if_pos hbeq] at hsome
      have he := Option.some.inj hsome
      rw [Prod.mk.injEq, Prod.mk.injEq] at he
      obtain ⟨e1, e2, e3⟩ := he
      rw [e2] at hcand hbeq e3
      obtain ⟨u', t⟩ := ut
      have hu : u' = u := e1
      have ht : t = H c := (beq_iff_eq.mp hbeq).symm
      rw [hu, ht] at hut
      exact ⟨hcand, hut, e3.symm⟩
    · rw [if_neg hbeq] at hsome
      exact Option.noConfusion hsome
  · rintro ⟨hc, hload, rfl⟩
    refine ⟨c, hc, List.mem_filterMap.mpr ⟨(u, H c), hload, ?_⟩⟩
    rw [if_pos (beq_iff_eq.mpr rfl)]

/-- C6: the lab matcher (1) reads at most `maxChecks` candidate lines,
ignoring the rest without error; (2) silently skips hash-table lines that
strip to empty or lack a colon; (3) reports `(identifier, candidate,
digest)` exactly for the pairs whose digests agree; hence (4) disjoint
digests give the empty hit list, and (5) with table
`{"alice": H("hunter2")}` and candidates file `["hunter2"]` the result is
exactly `[("alice", "hunter2", H("hunter2"))]` — for every digest function
`H` whose digest of `"hunter2"` is a lowercase string without surrounding
whitespace, as a SHA-256 hex digest is. -/
theorem claim_C6 :
    (∀ (H : String → String) (hl cl : List String) (mc : Nat),
        lab_simulate_match H hl cl mc = lab_simulate_match H hl (cl.take mc) mc) ∧
    (∀ (hl1 hl2 : List String) (l : String),
        ((pyStrip l).data.isEmpty || !((pyStrip l).data.contains ':')) = true →
        load_local_sha256_hashes (hl1 ++ l :: hl2) =
          load_local_sha256_hashes (hl1 ++ hl2)) ∧
    (∀ (H : String → String) (hl cl : List String) (mc : Nat) (u c h' : String),
        (u, c, h') ∈ lab_simulate_match H hl cl mc ↔
          (c ∈ (cl.take mc).map pyStrip ∧
            (u, H c) ∈ load_local_sha256_hashes hl ∧ h' = H c)) ∧
    (∀ (H : String → String) (hl cl : List String) (mc : Nat),
        (∀ c ∈ (cl.take mc).map pyStrip,
            ∀ ut ∈ load_local_sha256_hashes hl, H c ≠ ut.2) →
        lab_simulate_match H hl cl mc = []) ∧
    (∀ (H : String → String) (d : String),
        d.data.dropWhile isPySpace = d.data →
        d.data.reverse.dropWhile isPySpace = d.data.reverse →
        pyLower d = d → d = H "hunter2" →
        lab_simulate_match H ["alice:" ++ d] ["hunter2"] 100000 =
          [("alice", "hunter2", d)]) := by
  refine ⟨?cap, ?skip, ?mem, ?disjoint, ?alice⟩
  case cap =>
    intro H hl cl mc
    unfold lab_simulate_match
    rw [List.take_take, Nat.min_self]
  case skip =>
    intro hl1 hl2 l hmal
    unfold load_local_sha256_hashes
    rw [List.foldl_append, List.foldl_append, List.foldl_cons]
    congr 1
    dsimp only
    rw [if_pos hmal]
  case mem =>
    intro H hl cl mc u c h'
    exact lab_simulate_match_mem
  case disjoint =>
    intro H hl cl mc hno
    rw [List.eq_nil_iff_forall_not_mem]
    rintro ⟨u, c, h'⟩ hx
    rw [lab_simulate_match_mem] at hx
    obtain ⟨hc, hload, rfl⟩ := hx
    exact hno c hc (u, H c) hload rfl
  case alice =>
    intro H d h1 h2 h3 h4
    have hdata : (("alice:" ++ d) : String).data = "alice".data ++ ':' :: d.data := by
      rw [String.data_append]
      rfl
    have hline : pyStrip ("alice:" ++ d) = "alice:" ++ d := by
      apply pyStrip_eq_self
      · rw [String.data_append]
        exact dropWhile_append_fixed _ _ (by decide) h1
      · rw [String.data_append, List.reverse_append]
        exact dropWhile_append_fixed _ _ h2 (by decide)
    have hcond : ((pyStrip ("alice:" ++ d)).data.isEmpty ||
        !((pyStrip ("alice:" ++ d)).data.contains ':')) = false := by
      rw [hline, hdata]
      simp
    have hsplit : splitOnceColon (pyStrip ("alice:" ++ d)).data = ("alice".data, d.data) := by
      rw [hline, hdata]
      exact splitOnceColon_append _ _ (by decide)
    have hstripd : pyStrip (⟨d.data⟩ : String) = (⟨d.data⟩ : String) :=
      pyStrip_eq_self h1 h2
    have hload : load_local_sha256_hashes ["alice:" ++ d] = [("alice", d)] := by
      unfold load_local_sha256_hashes
      rw [List.foldl_cons, List.foldl_nil]
      dsimp only
      rw [if_neg (by rw [hcond]; simp), hsplit]
      dsimp only
      rw [hstripd]
      show dictInsert [] (pyStrip "alice") (pyLower d) = [("alice", d)]
      rw [h3, show pyStrip "alice" = "alice" from by decide]
      rfl
    unfold lab_simulate_match
    rw [hload]
    dsimp only
    rw [show (["hunter2"] : List String).take 100000 = ["hunter2"] from rfl]
    rw [show (["hunter2"] : List String).map pyStrip = ["hunter2"] from by decide]
    simp only [List.flatMap_cons, List.flatMap_nil, List.append_nil]
    rw [← h4]
    simp [List.filterMap_cons]

/-- C6 witness: concrete application of `claim_C6` with the digest function
constantly `"2ab96390c7dbe3439de74d0c9b0b1767"`. -/
theorem claim_C6_witness :
    lab_simulate_match (fun _ => "2ab96390c7dbe3439de74d0c9b0b1767")
      ["alice:" ++ "2ab96390c7dbe3439de74d0c9b0b1767"] ["hunter2"] 100000 =
      [("alice", "hunter2", "2ab96390c7dbe3439de74d0c9b0b1767")] :=
  claim_C6.2.2.2.2 (fun _ => "2ab96390c7dbe3439de74d0c9b0b1767")
    "2ab96390c7dbe3439de74d0c9b0b1767" (by decide) (by decide) (by decide) rfl
